import Mathlib

/-!
# HTTP-X core: a shallow embedding in Lean 4

This file embeds the core data structures and operations of the HTTP-X
transport (crates `httpx-dsa`, `httpx-core`, `httpx-transport`,
`httpx-cluster`) and proves properties of them.

Conventions of the embedding:
* Machine integers (`u8`, `u32`, `u64`, `usize`) are modelled as `ℕ`;
  wrap-around is written explicitly (`% 2 ^ 32`, ...) at the places where
  the Rust code performs a wrapping cast or wrapping arithmetic.
* A Rust `panic!` / failed `assert!` / out-of-bounds `Vec` index is
  modelled by `Except.error ()`: the program halts and no successor state
  exists.
* `f32` values appearing in this code are nonnegative and either zero or
  of magnitude at least `2 ^ (-41)`; such a value is represented exactly
  as a natural number `n` standing for `n / 2 ^ 64`.  IEEE-754 binary32
  round-to-nearest, ties-to-even is implemented on this representation.
* Concurrency is modelled by sequential interleaving: atomic loads and
  compare-and-swap loops become plain reads and updates of an explicit
  state that is threaded through the operations.
-/

/-! ## Linear Intent Trie (`httpx-dsa/src/trie.rs`) -/

/-- `const NULL_NODE: u32 = u32::MAX` — the null child marker. -/
def NULL_NODE : ℕ := 2 ^ 32 - 1

/-- A node of the linearized radix tree (`struct TrieNode`).
`children: [u32; 2]` is split into `child0`/`child1`, `weights: [u8; 2]`
into `w0`/`w1`.  The 37 bytes of `_padding` carry no information and are
omitted. -/
structure TrieNode where
  child0 : ℕ
  child1 : ℕ
  w0 : ℕ
  w1 : ℕ
  payload_handle : ℕ
  version_id : ℕ
  semantic_mask : ℕ
  flags : ℕ
deriving DecidableEq

/-- `children[bit]` with `bit ∈ {0, 1}`; `true` selects index 1. -/
def TrieNode.child (n : TrieNode) (b : Bool) : ℕ :=
  if b then n.child1 else n.child0

/-- `weights[outcome]` with `outcome ∈ {0, 1}`; `true` selects index 1. -/
def TrieNode.weight (n : TrieNode) (b : Bool) : ℕ :=
  if b then n.w1 else n.w0

/-- Write `children[bit] = v`. -/
def TrieNode.setChild (n : TrieNode) (b : Bool) (v : ℕ) : TrieNode :=
  if b then { n with child1 := v } else { n with child0 := v }

/-- The all-fresh node pushed by `observe`/`warm` extension and used for
the root: null children, zero weights, no payload. -/
def freshTrieNode : TrieNode :=
  ⟨NULL_NODE, NULL_NODE, 0, 0, 0, 0, 0, 0⟩

/-- `struct LinearIntentTrie { nodes: Vec<TrieNode>, sequence_number: u64 }` -/
structure LinearIntentTrie where
  nodes : List TrieNode
  sequence_number : ℕ
deriving DecidableEq

namespace LinearIntentTrie

/-- `LinearIntentTrie::new(capacity)` — pushes the root node; `capacity`
only pre-sizes the `Vec` and does not affect the contents. -/
def new (_capacity : ℕ) : LinearIntentTrie :=
  ⟨[freshTrieNode], 0⟩

end LinearIntentTrie

/-- The MSB-first bit expansion of one context byte:
`for i in (0..8).rev() { bit = (byte >> i) & 1 }`. -/
def byteBits (b : ℕ) : List Bool :=
  ((List.range 8).reverse).map (fun i => b.testBit i)

/-- The bit path of a context byte sequence: bytes in order, each byte
MSB-first.  This is exactly the double loop
`for &byte in context { for i in (0..8).rev() { ... } }`. -/
def ctxBits (ctx : List ℕ) : List Bool :=
  ctx.flatMap byteBits

namespace LinearIntentTrie

/-- The shared read-only descent loop of `get_probability`,
`associate_payload` and `get_node_at_path`: starting at index `curr`,
follow one child per bit.  `Except.error ()` models the panic of the
unchecked `self.nodes[curr]` access; `.ok none` models reaching a
`NULL_NODE` child (the code returns its miss value); `.ok (some i)` is
the index after all bits are consumed (the code reads `self.nodes[i]`
only after the loop, so no bounds check happens for `i` here). -/
def walkAux : List TrieNode → List Bool → ℕ → Except Unit (Option ℕ)
  | _, [], curr => .ok (some curr)
  | nodes, b :: bs, curr =>
    match nodes.get? curr with
    | none => .error ()
    | some node =>
      let next := node.child b
      if next = NULL_NODE then .ok none
      else walkAux nodes bs next

/-- Walk the full bit path of `ctx` from the root and read the terminal
node (the `&self.nodes[curr]` access performed after the loop). -/
def resolveCtx (t : LinearIntentTrie) (bits : List Bool) :
    Except Unit (Option TrieNode) :=
  match walkAux t.nodes bits 0 with
  | .error () => .error ()
  | .ok none => .ok none
  | .ok (some idx) =>
    match t.nodes.get? idx with
    | none => .error ()
    | some node => .ok (some node)

end LinearIntentTrie

/-! ### f32 model

`get_probability` computes `weight as f32 / total as f32` and the engine
compares the result against the `f32` threshold `0.85`.  All `f32` values
reached by this code are nonnegative and either `0` or at least
`1 / 510 > 2 ^ (-41)`, so we represent a value `x` exactly as the natural
number `x · 2 ^ 64`.  Rounding is IEEE-754 binary32 round-to-nearest,
ties-to-even (24-bit significand). -/

/-- Floor of `log₂ n` (for `1 ≤ n < 2 ^ 128`) by a fixed binary descent
over chunk widths 64, 32, 16, 8, 4, 2, 1.  Written with `cond`/`Nat.ble`
so that kernel reduction of the exhaustive weight check below stays
cheap. -/
def log2Fix (n : ℕ) : ℕ :=
  let p0 := cond (Nat.ble (2 ^ 64) n) (n / 2 ^ 64, 64) (n, 0)
  let p1 := cond (Nat.ble (2 ^ 32) p0.1) (p0.1 / 2 ^ 32, p0.2 + 32) p0
  let p2 := cond (Nat.ble (2 ^ 16) p1.1) (p1.1 / 2 ^ 16, p1.2 + 16) p1
  let p3 := cond (Nat.ble (2 ^ 8) p2.1) (p2.1 / 2 ^ 8, p2.2 + 8) p2
  let p4 := cond (Nat.ble (2 ^ 4) p3.1) (p3.1 / 2 ^ 4, p3.2 + 4) p3
  let p5 := cond (Nat.ble (2 ^ 2) p4.1) (p4.1 / 2 ^ 2, p4.2 + 2) p4
  cond (Nat.ble 2 p5.1) (p5.2 + 1) p5.2

/-- Ceiling of `log₂ c` (for `c ≥ 1`): the smallest `k` with `c ≤ 2 ^ k`. -/
def clog2 (c : ℕ) : ℕ :=
  let l := log2Fix c
  cond (Nat.ble c (2 ^ l)) l (l + 1)

/-- Round-to-nearest, ties-to-even of a quotient: given the floor
mantissa `q` and remainder `r` of a division by `t` (`0 ≤ r < t`), pick
`q` or `q + 1`.  The tie `2 r = t` goes to the even mantissa. -/
def rnTie (q r t : ℕ) : ℕ :=
  cond (Nat.blt t (2 * r)) (q + 1)
    (cond (Nat.blt (2 * r) t) q
      (cond (Nat.beq (q % 2) 0) q (q + 1)))

/-- IEEE binary32 division `w / t` (for `0 < w ≤ t`), result scaled by
`2 ^ 64`.  `k = ⌈log₂ (t / w)⌉` locates the binade
`2 ^ (-k) ≤ w / t < 2 ^ (-k + 1)`; the 24-bit mantissa is
`w · 2 ^ (23 + k) / t` rounded to nearest/even, and one unit in the last
place is `2 ^ (41 - k)` scaled units. -/
def f32div (w t : ℕ) : ℕ :=
  cond (Nat.ble w 0 || Nat.ble t 0) 0
    (let k := clog2 ((t + w - 1) / w)
     let num := w * 2 ^ (23 + k)
     rnTie (num / t) (num % t) t * 2 ^ (41 - k))

/-- Round a value `s / 2 ^ 64` (with `s : ℕ`) to IEEE binary32
nearest/even.  If `log₂ s ≤ 23` the unit in the last place is at most
one scaled unit, so the value is already representable. -/
def roundF32 (s : ℕ) : ℕ :=
  cond (Nat.ble s 0) 0
    (let n := log2Fix s
     cond (Nat.ble n 23) s
       (let u := 2 ^ (n - 23)
        rnTie (s / u) (s % u) u * u))

/-- IEEE binary32 addition on the scaled representation. -/
def f32add (a b : ℕ) : ℕ := roundF32 (a + b)

/-- The scaled representation of `1.0f32`. -/
def oneF32 : ℕ := 2 ^ 64

/-- The scaled representation of the engine threshold `0.85f32`
(`0.85` rounds to the binary32 value `14260634 / 2 ^ 24`). -/
def thresholdF32 : ℕ := 14260634 * 2 ^ 40

namespace LinearIntentTrie

/-- `LinearIntentTrie::get_probability(context, next_bit)`.  Walks the
bit path (returning `0.0` on a `NULL_NODE` child), then reads the leaf's
weights and returns `0.0` when the total is zero, otherwise the binary32
quotient `weights[next_bit] / (weights[0] + weights[1])`. -/
def get_probability (t : LinearIntentTrie) (context : List ℕ)
    (next_bit : Bool) : Except Unit ℕ :=
  match t.resolveCtx (ctxBits context) with
  | .error () => .error ()
  | .ok none => .ok 0
  | .ok (some node) =>
    let total := node.w0 + node.w1
    if total = 0 then .ok 0
    else .ok (f32div (node.weight next_bit) total)

/-- The extending descent loop shared by `observe` and `warm`: follow the
bit path, appending a fresh node (`new_idx = self.nodes.len() as u32`,
a wrapping cast) whenever the required child is `NULL_NODE`.  Returns the
final pool and terminal index. -/
def observeBits : List TrieNode → List Bool → ℕ →
    Except Unit (List TrieNode × ℕ)
  | nodes, [], curr => .ok (nodes, curr)
  | nodes, b :: bs, curr =>
    match nodes.get? curr with
    | none => .error ()
    | some node =>
      let next := node.child b
      if next = NULL_NODE then
        let newIdx := nodes.length % 2 ^ 32
        let nodes' := (nodes ++ [freshTrieNode]).set curr
          (node.setChild b newIdx)
        observeBits nodes' bs newIdx
      else observeBits nodes bs next

/-- Saturating increment of `weights[next_bit]`:
`if *weight < 255 { *weight += 1 }`. -/
def incWeight (n : TrieNode) (b : Bool) : TrieNode :=
  if b then (if n.w1 < 255 then { n with w1 := n.w1 + 1 } else n)
  else (if n.w0 < 255 then { n with w0 := n.w0 + 1 } else n)

/-- `LinearIntentTrie::observe(context, next_bit)` — extends the bit path
lazily, then increments the terminal node's weight with saturation at
255.  The final weight update reads `self.nodes[curr]`, which is a
checked access in the model. -/
def observe (t : LinearIntentTrie) (context : List ℕ) (next_bit : Bool) :
    Except Unit LinearIntentTrie :=
  match observeBits t.nodes (ctxBits context) 0 with
  | .error () => .error ()
  | .ok (nodes, curr) =>
    match nodes.get? curr with
    | none => .error ()
    | some node =>
      .ok { t with nodes := nodes.set curr (incWeight node next_bit) }

/-- `LinearIntentTrie::warm(path)` — the same extension loop as `observe`
but without the final weight update (no access after the loop). -/
def warm (t : LinearIntentTrie) (path : List ℕ) :
    Except Unit LinearIntentTrie :=
  match observeBits t.nodes (ctxBits path) 0 with
  | .error () => .error ()
  | .ok (nodes, _) => .ok { t with nodes := nodes }

/-- `LinearIntentTrie::associate_payload(context, handle, version_id)` —
walks the existing bit path; a `NULL_NODE` child makes the whole call a
no-op (`return`), otherwise the terminal node's payload handle and
version are overwritten. -/
def associate_payload (t : LinearIntentTrie) (context : List ℕ)
    (handle version_id : ℕ) : Except Unit LinearIntentTrie :=
  match walkAux t.nodes (ctxBits context) 0 with
  | .error () => .error ()
  | .ok none => .ok t
  | .ok (some idx) =>
    match t.nodes.get? idx with
    | none => .error ()
    | some node =>
      let node' := { node with payload_handle := handle, version_id := version_id }
      .ok { t with nodes := t.nodes.set idx node' }

/-- `LinearIntentTrie::get_node_at_path(path)` — the terminal node of the
bit path, if the path exists. -/
def get_node_at_path (t : LinearIntentTrie) (path : List ℕ) :
    Except Unit (Option TrieNode) :=
  t.resolveCtx (ctxBits path)

/-- The per-index body of `merge_newer`'s loop: sum the weights with
saturation at 255 (`w_sum.min(255)`), and adopt `other`'s version and
payload handle where `other`'s version is strictly newer. -/
def mergeNode (a b : TrieNode) : TrieNode :=
  let a' := { a with w0 := min (a.w0 + b.w0) 255, w1 := min (a.w1 + b.w1) 255 }
  if b.version_id > a.version_id then
    { a' with version_id := b.version_id, payload_handle := b.payload_handle }
  else a'

/-- `LinearIntentTrie::merge_newer(other)` — returns the `bool` result
together with the updated trie (`self` after the call). -/
def merge_newer (t other : LinearIntentTrie) : Bool × LinearIntentTrie :=
  if other.sequence_number ≤ t.sequence_number then (false, t)
  else if t.nodes.length = other.nodes.length then
    (true, ⟨List.zipWith mergeNode t.nodes other.nodes,
      other.sequence_number⟩)
  else (false, t)

end LinearIntentTrie

/-! ## Secure Slab (`httpx-dsa/src/slab.rs`)

Only the observable bookkeeping state is embedded: the slot count and the
per-slot reference counts and version ids (`ref_counts: Vec<AtomicUsize>`,
`version_ids: Vec<AtomicU32>`).  The mapped memory itself (base pointer,
guard pages) carries no information relevant to the verified properties.
Atomic operations become plain reads/updates of the threaded state. -/

structure SecureSlab where
  slots : ℕ
  ref_counts : List ℕ
  version_ids : List ℕ
deriving DecidableEq

namespace SecureSlab

/-- `SecureSlab::new(slots)` — all reference counts and versions start
at zero. -/
def new (slots : ℕ) : SecureSlab :=
  ⟨slots, List.replicate slots 0, List.replicate slots 0⟩

/-- The reference count of slot `idx` (meaningful for `idx < slots`). -/
def rcAt (s : SecureSlab) (idx : ℕ) : ℕ :=
  s.ref_counts.getD idx 0

/-- The version id of slot `idx` (meaningful for `idx < slots`). -/
def versionAt (s : SecureSlab) (idx : ℕ) : ℕ :=
  s.version_ids.getD idx 0

/-- `SecureSlab::increment_rc(idx)` — `assert!(idx < self.slots)` then an
atomic `fetch_add(1)`. -/
def increment_rc (s : SecureSlab) (idx : ℕ) : Except Unit SecureSlab :=
  if idx < s.slots then
    .ok { s with ref_counts := s.ref_counts.set idx (s.rcAt idx + 1) }
  else .error ()

/-- `SecureSlab::decrement_rc(idx)` — `assert!` then `fetch_sub(1)`,
panicking when the previous value was `0` ("decrement_rc called on slot
with RC 0"); the panic halts the program, so no successor state exists
in the zero case. -/
def decrement_rc (s : SecureSlab) (idx : ℕ) : Except Unit SecureSlab :=
  if idx < s.slots then
    if s.rcAt idx = 0 then .error ()
    else .ok { s with ref_counts := s.ref_counts.set idx (s.rcAt idx - 1) }
  else .error ()

/-- `SecureSlab::explicit_release(idx)` — `assert!` then panic when the
reference count is non-zero ("slot is still in-flight"); the state is
not modified in either case. -/
def explicit_release (s : SecureSlab) (idx : ℕ) : Except Unit SecureSlab :=
  if idx < s.slots then
    if s.rcAt idx > 0 then .error () else .ok s
  else .error ()

/-- `SecureSlab::is_in_flight(idx)` — `assert!` then an RC load. -/
def is_in_flight (s : SecureSlab) (idx : ℕ) : Except Unit Bool :=
  if idx < s.slots then .ok (s.rcAt idx > 0) else .error ()

/-- `SecureSlab::get_version(idx)` — `assert!` then a version load. -/
def get_version (s : SecureSlab) (idx : ℕ) : Except Unit ℕ :=
  if idx < s.slots then .ok (s.versionAt idx) else .error ()

/-- `SecureSlab::set_version(idx, version)` — `assert!` then a store. -/
def set_version (s : SecureSlab) (idx : ℕ) (version : ℕ) :
    Except Unit SecureSlab :=
  if idx < s.slots then
    .ok { s with version_ids := s.version_ids.set idx version }
  else .error ()

/-- `SecureSlab::get_slot(idx)` — `assert!(idx < self.slots)`; the
returned pointer itself is outside the model, so only the bounds check
is retained. -/
def get_slot_check (s : SecureSlab) (idx : ℕ) : Except Unit Unit :=
  if idx < s.slots then .ok () else .error ()

end SecureSlab

/-- One reference-count operation on the slab, for reasoning about
arbitrary sequences of `increment_rc` / `decrement_rc` /
`explicit_release` calls. -/
inductive RcOp where
  | inc (idx : ℕ)
  | dec (idx : ℕ)
  | rel (idx : ℕ)

/-- Apply one reference-count operation (errors model panics). -/
def SecureSlab.stepRc (s : SecureSlab) : RcOp → Except Unit SecureSlab
  | .inc i => s.increment_rc i
  | .dec i => s.decrement_rc i
  | .rel i => s.explicit_release i

/-- Run a sequence of reference-count operations; the first panic halts
the run. -/
def SecureSlab.runRc (s : SecureSlab) : List RcOp → Except Unit SecureSlab
  | [] => .ok s
  | op :: ops =>
    match s.stepRc op with
    | .error () => .error ()
    | .ok s' => s'.runRc ops

/-- The ideal integer semantics of the same operation sequence: counts
live in `ℤ` and `dec` subtracts unconditionally.  Comparing `runRc`
against this semantics expresses that the guarded implementation never
lets a count go below zero. -/
def rcIdeal (f : ℕ → ℤ) : RcOp → ℕ → ℤ
  | .inc i, j => if i = j then f j + 1 else f j
  | .dec i, j => if i = j then f j - 1 else f j
  | .rel _, j => f j

/-- Fold of `rcIdeal` over an operation sequence. -/
def rcIdealRun (f : ℕ → ℤ) : List RcOp → ℕ → ℤ
  | [], j => f j
  | op :: ops, j => rcIdealRun (fun i => rcIdeal f op i) ops j

/-! ## Session (`httpx-core/src/session.rs`) -/

inductive SessionMode where
  | ClusterIntegrated
  | SovereignAutonomous
deriving DecidableEq

/-- `struct Session` — the peer address is opaque to every verified
property, so it is represented by a bare `ℕ` tag. -/
structure Session where
  addr : ℕ
  mode : SessionMode
  iiw_credit : ℕ
  canceled : Bool
deriving DecidableEq

namespace Session

/-- `Session::new(addr)` — mode `ClusterIntegrated`, 10 credits, not
cancelled. -/
def new (addr : ℕ) : Session :=
  ⟨addr, .ClusterIntegrated, 10, false⟩

/-- `Session::cancel` — store `true`. -/
def cancel (s : Session) : Session := { s with canceled := true }

/-- `Session::reset_pivot` — store `false`. -/
def reset_pivot (s : Session) : Session := { s with canceled := false }

/-- `Session::is_canceled` — a load. -/
def is_canceled (s : Session) : Bool := s.canceled

/-- `Session::replenish_credits` — store 10. -/
def replenish_credits (s : Session) : Session := { s with iiw_credit := 10 }

/-- `Session::consume_credit` — the sequential semantics of the CAS
loop: fail (and change nothing) at zero, otherwise subtract one and
succeed. -/
def consume_credit (s : Session) : Bool × Session :=
  if s.iiw_credit = 0 then (false, s)
  else (true, { s with iiw_credit := s.iiw_credit - 1 })

/-- `Session::has_credit` — a load compared with zero. -/
def has_credit (s : Session) : Bool := s.iiw_credit > 0

end Session

/-- One mutating `Session` call, for reasoning about arbitrary
interleavings of the session operations. -/
inductive SessionOp where
  | consume
  | replenish
  | cancel
  | reset

/-- Apply one session operation (none of them can fail). -/
def Session.stepOp (s : Session) : SessionOp → Session
  | .consume => (s.consume_credit).2
  | .replenish => s.replenish_credits
  | .cancel => s.cancel
  | .reset => s.reset_pivot

/-- Run a sequence of session operations. -/
def Session.runOps (s : Session) : List SessionOp → Session
  | [] => s
  | op :: ops => (s.stepOp op).runOps ops

/-! ## Predictive Engine (`httpx-core/src/engine.rs`)

The `Atomic<LinearIntentTrie>` pointer is modelled by the trie value it
currently holds: `PredictiveEngine::new` installs a trie and
`swap_weights` replaces it, so on every path reached by the verified
operations the pointer is non-null.  Epoch pinning and deferred
reclamation govern memory reuse only and have no counterpart in a
value-level model. -/

structure PredictiveEngine where
  trie : LinearIntentTrie
  active : Bool
  threshold : ℕ
deriving DecidableEq

namespace PredictiveEngine

/-- `PredictiveEngine::new(active)` — installs `LinearIntentTrie::new(1024)`
and fixes the threshold at `0.85f32`. -/
def new (active : Bool) : PredictiveEngine :=
  ⟨LinearIntentTrie.new 1024, active, thresholdF32⟩

/-- `PredictiveEngine::swap_weights(new_trie)` — atomically replace the
installed trie. -/
def swap_weights (e : PredictiveEngine) (new_trie : LinearIntentTrie) :
    PredictiveEngine :=
  { e with trie := new_trie }

/-- `PredictiveEngine::fire_push_if_likely(session, current_context)`.
Returns the push decision together with the session state after the
call.  The guard order, the two probability reads and the
consume-on-decision step mirror the source exactly. -/
def fire_push_if_likely (e : PredictiveEngine) (session : Session)
    (current_context : List ℕ) : Except Unit (Option Bool × Session) :=
  if !e.active then .ok (none, session)
  else if !session.has_credit || session.is_canceled then
    .ok (none, session)
  else
    match e.trie.get_probability current_context true,
        e.trie.get_probability current_context false with
    | .ok p_true, .ok p_false =>
      let decision : Option Bool :=
        if p_true > e.threshold then some true
        else if p_false > e.threshold then some false
        else none
      match decision with
      | some b =>
        let (got, session') := session.consume_credit
        if got then .ok (some b, session') else .ok (none, session')
      | none => .ok (none, session)
    | _, _ => .error ()

/-- `PredictiveEngine::predict_for_path(session, path)` — resolves a path
to `(payload_handle, version_id)`, consuming one credit on success. -/
def predict_for_path (e : PredictiveEngine) (session : Session)
    (path : List ℕ) : Except Unit (Option (ℕ × ℕ) × Session) :=
  if !e.active then .ok (none, session)
  else if !session.has_credit || session.is_canceled then
    .ok (none, session)
  else
    match e.trie.get_node_at_path path with
    | .error () => .error ()
    | .ok none => .ok (none, session)
    | .ok (some node) =>
      if node.payload_handle > 0 then
        let (got, session') := session.consume_credit
        if got then .ok (some (node.payload_handle, node.version_id), session')
        else .ok (none, session')
      else .ok (none, session)

/-- `observe` applied `n` times in sequence (the multiplier loop in
`train`). -/
def observeTimes : ℕ → LinearIntentTrie → List ℕ → Bool →
    Except Unit LinearIntentTrie
  | 0, t, _, _ => .ok t
  | n + 1, t, ctx, bit =>
    match t.observe ctx bit with
    | .error () => .error ()
    | .ok t' => observeTimes n t' ctx bit

/-- `PredictiveEngine::train(session, context, response_bit)` — loads the
installed trie and calls `observe` on **that trie in place** (via the
`*const → *mut` cast), twice in `SovereignAutonomous` mode and once
otherwise.  The engine after the call therefore holds the mutated
trie. -/
def train (e : PredictiveEngine) (session : Session) (context : List ℕ)
    (response_bit : Bool) : Except Unit PredictiveEngine :=
  if !e.active then .ok e
  else
    let multiplier := if session.mode = SessionMode.SovereignAutonomous then 2 else 1
    match observeTimes multiplier e.trie context response_bit with
    | .error () => .error ()
    | .ok t' => .ok { e with trie := t' }

end PredictiveEngine

/-! ## Core Dispatcher (`httpx-transport/src/dispatcher.rs`)

The io_uring is modelled by its submission queue (pending entries with
their `user_data` tags, bounded by the ring capacity) and its completion
queue (the `user_data` tags the kernel has completed).  The socket, the
`GsoPacketizer` scratch memory and the `msghdr` pointers carry no state
relevant to the verified properties; of `prepare_burst` only its
`get_slot` bounds checks are retained. -/

structure IoRing where
  capacity : ℕ
  sq : List ℕ
  cq : List ℕ
deriving DecidableEq

/-- `SubmissionQueue::push` — fails (without blocking) when the queue is
full. -/
def IoRing.push (r : IoRing) (user_data : ℕ) : Option IoRing :=
  if r.sq.length < r.capacity then some { r with sq := r.sq ++ [user_data] }
  else none

/-- `enum ControlSignal` (`httpx-core/src/lib.rs`). -/
inductive ControlSignal where
  | Pivot (addr : ℕ)
  | KillAll
  | SwapTrie (trie : LinearIntentTrie)

/-- The `std::io::Error` values produced by `submit_linked_burst`:
`InvalidData("Stale Payload")` at the freshness gate and
`Other("SQ Full")` on backpressure. -/
inductive SubmitErr where
  | stalePayload
  | sqFull
deriving DecidableEq

/-- The dispatcher state threaded through the loop: the engine (behind
`Arc`, swapped by control signals), the ring, and the slab the loop
borrows. -/
structure DispatchState where
  engine : PredictiveEngine
  ring : IoRing
  slab : SecureSlab
deriving DecidableEq

/-- `CoreDispatcher::submit_linked_burst(_target, payload_handle,
template_handle, expected_version, slab)`.

Step order exactly as in the source: freshness gate
(`slab.get_version(payload)` vs `expected_version`), `prepare_burst`
(which reads `slab.get_slot` for the template and payload slots),
`user_data` encoding `((payload + 1) | ((template + 1) << 32))` with
`u64` wrapping, the two RC increments, then the queue push.  When the
push fails the source returns the "SQ Full" error **without undoing the
two increments**. -/
def submit_linked_burst (ring : IoRing) (slab : SecureSlab)
    (payload_handle template_handle expected_version : ℕ) :
    Except Unit (Except SubmitErr Unit × IoRing × SecureSlab) := do
  let current_version ← slab.get_version payload_handle
  if current_version ≠ expected_version then
    .ok (.error .stalePayload, ring, slab)
  else do
    slab.get_slot_check template_handle
    slab.get_slot_check payload_handle
    let user_data :=
      Nat.lor (payload_handle + 1) ((template_handle + 1) * 2 ^ 32 % 2 ^ 64)
    let slab ← slab.increment_rc payload_handle
    let slab ← slab.increment_rc template_handle
    match ring.push user_data with
    | none => .ok (.error .sqFull, ring, slab)
    | some ring' => .ok (.ok (), ring', slab)

/-- `CoreDispatcher::reap_completions` — drain the completion queue; a
completion with `user_data > 0` decrements RC on `(low32 - 1)` and, when
the high 32 bits are non-zero, on `(high32 - 1)`.  The `u64` subtraction
`(user_data & 0xFFFFFFFF) - 1` wraps. -/
def reapOne (slab : SecureSlab) (user_data : ℕ) : Except Unit SecureSlab := do
  if user_data > 0 then
    let low := user_data % 2 ^ 32
    let payload_handle := (low + 2 ^ 64 - 1) % 2 ^ 64
    let template_data := user_data / 2 ^ 32 % 2 ^ 32
    let slab ← slab.decrement_rc payload_handle
    if template_data > 0 then slab.decrement_rc (template_data - 1)
    else .ok slab
  else .ok slab

/-- Drain loop of `reap_completions` over the pending completions. -/
def reapList (slab : SecureSlab) : List ℕ → Except Unit SecureSlab
  | [] => .ok slab
  | ud :: rest =>
    match reapOne slab ud with
    | .error () => .error ()
    | .ok slab' => reapList slab' rest

/-- `CoreDispatcher::reap_completions` — drain the whole completion
queue. -/
def reap_completions (ring : IoRing) (slab : SecureSlab) :
    Except Unit (IoRing × SecureSlab) :=
  match reapList slab ring.cq with
  | .error () => .error ()
  | .ok slab' => .ok ({ ring with cq := [] }, slab')

/-- `CoreDispatcher::handle_control(signal)`.  `Pivot` calls
`engine.cancel_for` (which only logs), `KillAll` only logs
("Global termination"), and `SwapTrie` installs the broadcast trie via
`swap_weights`.  None of the arms touches the ring or slab and none of
them breaks the loop. -/
def handle_control (st : DispatchState) (signal : ControlSignal) :
    DispatchState :=
  match signal with
  | .Pivot _ => st
  | .KillAll => st
  | .SwapTrie t => { st with engine := st.engine.swap_weights t }

/-- `CoreDispatcher::on_packet(data, addr, slab)` — build an ephemeral
session, emit the learning event (channel send, outside the state),
resolve the path, and on a hit call `submit_linked_burst` with template
handle 0, discarding its result (`let _ = ...`). -/
def on_packet (st : DispatchState) (data : List ℕ) (addr : ℕ) :
    Except Unit DispatchState := do
  let session := Session.new addr
  match st.engine.predict_for_path session data with
  | .error () => .error ()
  | .ok (none, _) => .ok st
  | .ok (some (payload, version), _) =>
    let (_, ring', slab') ←
      submit_linked_burst st.ring st.slab payload 0 version
    .ok { st with ring := ring', slab := slab' }

/-- One `select!` outcome inside `run_loop`: either a control signal or a
datagram. -/
inductive LoopEvent where
  | ctrl (signal : ControlSignal)
  | pkt (data : List ℕ) (addr : ℕ)

/-- One iteration of `run_loop`: reap completions, then handle the event
the `select!` produced. -/
def run_loop_iter (st : DispatchState) (ev : LoopEvent) :
    Except Unit DispatchState := do
  let (ring', slab') ← reap_completions st.ring st.slab
  let st := { st with ring := ring', slab := slab' }
  match ev with
  | .ctrl signal => .ok (handle_control st signal)
  | .pkt data addr => on_packet st data addr

/-- `CoreDispatcher::run_loop` over a finite prefix of arriving events.
The source is `loop { ... }` with no `break` in any arm, so every
arriving event is processed — including every event that arrives after a
`KillAll`. -/
def run_loop (st : DispatchState) : List LoopEvent → Except Unit DispatchState
  | [] => .ok st
  | ev :: evs =>
    match run_loop_iter st ev with
    | .error () => .error ()
    | .ok st' => run_loop st' evs

/-! ## Derived definitions used by the verified properties -/

/-- The probability-sum check of one weight pair: with `t = w0 + w1 > 0`,
the binary32 sum `RN(w0/t) ⊕ RN(w1/t)` must be exactly `1.0`. -/
def checkPair (w0 w1 : ℕ) : Bool :=
  Nat.beq (f32add (f32div w0 (w0 + w1)) (f32div w1 (w0 + w1))) (2 ^ 64)

/-- `checkPair w0 (w0 + j)` for all `j ≤ d`. -/
def checkRow (w0 : ℕ) : ℕ → Bool
  | 0 => checkPair w0 w0
  | d + 1 => checkPair w0 (w0 + d + 1) && checkRow w0 d

/-- `checkRow m (255 - m)` for the rows `m = lo + 1, ..., lo + n`: every
pair `lo < w0 ≤ w1 ≤ 255` with `w0 ≤ lo + n`.  The all-pairs check is
split into 17 segments of 15 rows each so that the kernel evaluates one
bounded block per theorem. -/
def checkSeg (lo : ℕ) : ℕ → Bool
  | 0 => true
  | n + 1 => checkRow (lo + n + 1) (255 - (lo + n + 1)) && checkSeg lo n

/-- `checkPair 0 w1` for all `1 ≤ w1 ≤ n`. -/
def checkZeroRow : ℕ → Bool
  | 0 => true
  | k + 1 => checkPair 0 (k + 1) && checkZeroRow k

/-- Well-formedness of a node pool: every non-null child index is
strictly below the pool length. -/
def GoodPool (nodes : List TrieNode) : Prop :=
  ∀ n ∈ nodes, ∀ b : Bool, n.child b ≠ NULL_NODE → n.child b < nodes.length

/-- Well-formedness of a trie: the root exists and the pool is
well-formed. -/
def GoodTrie (t : LinearIntentTrie) : Prop :=
  0 < t.nodes.length ∧ GoodPool t.nodes

/-- Weights fit in a `u8`, as in the Rust representation. -/
def WeightsBounded (t : LinearIntentTrie) : Prop :=
  ∀ n ∈ t.nodes, n.w0 ≤ 255 ∧ n.w1 ≤ 255

/-- The tries obtainable from `new` by any sequence of `observe`, `warm`,
`associate_payload` and `merge_newer` calls (with arbitrary merge
partners). -/
inductive TrieReachable : LinearIntentTrie → Prop where
  | new (capacity : ℕ) : TrieReachable (LinearIntentTrie.new capacity)
  | observe {t t' : LinearIntentTrie} (ctx : List ℕ) (bit : Bool) :
      TrieReachable t → t.observe ctx bit = .ok t' → TrieReachable t'
  | warm {t t' : LinearIntentTrie} (path : List ℕ) :
      TrieReachable t → t.warm path = .ok t' → TrieReachable t'
  | associate {t t' : LinearIntentTrie} (ctx : List ℕ) (h v : ℕ) :
      TrieReachable t → t.associate_payload ctx h v = .ok t' →
      TrieReachable t'
  | merge {t : LinearIntentTrie} (other : LinearIntentTrie) :
      TrieReachable t → TrieReachable (t.merge_newer other).2

/-- `fire_push_if_likely` iterated `n` times on the same context,
threading the session state and collecting the decisions in order. -/
def fireRepeat : ℕ → PredictiveEngine → Session → List ℕ →
    Except Unit (List (Option Bool) × Session)
  | 0, _, s, _ => .ok ([], s)
  | n + 1, e, s, ctx =>
    match e.fire_push_if_likely s ctx with
    | .error () => .error ()
    | .ok (d, s') =>
      match fireRepeat n e s' ctx with
      | .error () => .error ()
      | .ok (ds, s'') => .ok (d :: ds, s'')

/-- A concrete trie whose root carries weights `(0, 1)`: the result of
`LinearIntentTrie::new` followed by `observe(&[], true)`, giving the
empty context the decision probability `1.0 > 0.85`. -/
def certainTrie : LinearIntentTrie :=
  ⟨[⟨NULL_NODE, NULL_NODE, 0, 1, 0, 0, 0, 0⟩], 0⟩

/-! ## Helper lemmas -/

/-- Pointwise description of `List.zipWith` through `get?`. -/
theorem zipWith_get?_eq {α β γ : Type} (f : α → β → γ) :
    ∀ (l1 : List α) (l2 : List β) (i : ℕ),
      (List.zipWith f l1 l2).get? i =
        match l1.get? i, l2.get? i with
        | some a, some b => some (f a b)
        | _, _ => none := by
  intro l1
  induction l1 with
  | nil => intro l2 i; cases l2 <;> cases i <;> simp
  | cons a l1 ih =>
    intro l2 i
    cases l2 with
    | nil => cases i <;> simp
    | cons b l2 => cases i with
      | zero => simp
      | succ j => simpa using ih l2 j

/-- Session credit never grows beyond what `replenish_credits` sets. -/
theorem session_runOps_credit_le (ops : List SessionOp) :
    ∀ (s : Session), s.iiw_credit ≤ 10 →
      (s.runOps ops).iiw_credit ≤ 10 := by
  induction ops with
  | nil => intro s hs; simpa [Session.runOps] using hs
  | cons op ops ih =>
    intro s hs
    have hstep : (s.stepOp op).iiw_credit ≤ 10 := by
      cases op with
      | consume =>
        by_cases h : s.iiw_credit = 0
        · simp [Session.stepOp, Session.consume_credit, h, hs]
        · simp [Session.stepOp, Session.consume_credit, h]; omega
      | replenish => simp [Session.stepOp, Session.replenish_credits]
      | cancel => simpa [Session.stepOp, Session.cancel] using hs
      | reset => simpa [Session.stepOp, Session.reset_pivot] using hs
    simpa [Session.runOps] using ih (s.stepOp op) hstep

/-- `getD` after `set` at the written index. -/
theorem list_getD_set_self :
    ∀ (l : List ℕ) (i v : ℕ), i < l.length → (l.set i v).getD i 0 = v := by
  intro l
  induction l with
  | nil => intro i v h; simp at h
  | cons a l ih =>
    intro i v h
    cases i with
    | zero => simp
    | succ j => simpa using ih j v (by simpa using h)

/-- `getD` after `set` at any other index. -/
theorem list_getD_set_other :
    ∀ (l : List ℕ) (i j v : ℕ), i ≠ j → (l.set i v).getD j 0 = l.getD j 0 := by
  intro l
  induction l with
  | nil => intro i j v _; simp
  | cons a l ih =>
    intro i j v hij
    cases i with
    | zero =>
      cases j with
      | zero => exact absurd rfl hij
      | succ j' => simp
    | succ i' =>
      cases j with
      | zero => simp
      | succ j' => simpa using ih i' j' v (fun h => hij (by rw [h]))

/-- Every entry of an all-zero list reads as zero. -/
theorem list_getD_replicate_zero :
    ∀ (N j : ℕ), (List.replicate N (0 : ℕ)).getD j 0 = 0 := by
  intro N
  induction N with
  | zero => intro j; simp
  | succ n ih =>
    intro j
    cases j with
    | zero => simp [List.replicate]
    | succ j' => simp [List.replicate, ih j']

/-- A successful `runRc` tracks the ideal (unguarded, `ℤ`-valued)
reference-count semantics pointwise. -/
theorem runRc_matches_ideal :
    ∀ (ops : List RcOp) (s s' : SecureSlab),
      s.ref_counts.length = s.slots →
      s.runRc ops = .ok s' →
      ∀ i, (s'.rcAt i : ℤ) = rcIdealRun (fun j => (s.rcAt j : ℤ)) ops i := by
  intro ops
  induction ops with
  | nil =>
    intro s s' _ h i
    simp only [SecureSlab.runRc] at h
    cases h
    simp [rcIdealRun]
  | cons op ops ih =>
    intro s s' hlen h i
    cases op with
    | inc k =>
      simp only [SecureSlab.runRc, SecureSlab.stepRc, SecureSlab.increment_rc] at h
      by_cases hk : k < s.slots
      · simp only [if_pos hk] at h
        set s1 : SecureSlab :=
          { s with ref_counts := s.ref_counts.set k (s.rcAt k + 1) } with hs1
        have hlen1 : s1.ref_counts.length = s1.slots := by
          simp [hs1, List.length_set, hlen]
        have hfun : (fun j => (s1.rcAt j : ℤ)) =
            (fun j => rcIdeal (fun j' => (s.rcAt j' : ℤ)) (RcOp.inc k) j) := by
          funext j
          by_cases hj : k = j
          · subst hj
            have : s1.rcAt k = s.rcAt k + 1 := by
              simpa [hs1, SecureSlab.rcAt] using
                list_getD_set_self s.ref_counts k (s.rcAt k + 1) (by omega)
            simp [this, rcIdeal]
          · have : s1.rcAt j = s.rcAt j := by
              simpa [hs1, SecureSlab.rcAt] using
                list_getD_set_other s.ref_counts k j (s.rcAt k + 1) hj
            simp [this, rcIdeal, hj]
        have := ih s1 s' hlen1 h i
        rw [this, rcIdealRun, ← hfun]
      · simp only [if_neg hk] at h
        exact absurd h (by simp)
    | dec k =>
      simp only [SecureSlab.runRc, SecureSlab.stepRc, SecureSlab.decrement_rc] at h
      by_cases hk : k < s.slots
      · simp only [if_pos hk] at h
        by_cases hz : s.rcAt k = 0
        · rw [if_pos hz] at h
          exact absurd h (by simp)
        · rw [if_neg hz] at h
          set s1 : SecureSlab :=
            { s with ref_counts := s.ref_counts.set k (s.rcAt k - 1) } with hs1
          have hlen1 : s1.ref_counts.length = s1.slots := by
            simp [hs1, List.length_set, hlen]
          have hfun : (fun j => (s1.rcAt j : ℤ)) =
              (fun j => rcIdeal (fun j' => (s.rcAt j' : ℤ)) (RcOp.dec k) j) := by
            funext j
            by_cases hj : k = j
            · subst hj
              have hv : s1.rcAt k = s.rcAt k - 1 := by
                simpa [hs1, SecureSlab.rcAt] using
                  list_getD_set_self s.ref_counts k (s.rcAt k - 1) (by omega)
              have hpos : 1 ≤ s.rcAt k := Nat.one_le_iff_ne_zero.mpr hz
              simp [hv, rcIdeal]
              omega
            · have : s1.rcAt j = s.rcAt j := by
                simpa [hs1, SecureSlab.rcAt] using
                  list_getD_set_other s.ref_counts k j (s.rcAt k - 1) hj
              simp [this, rcIdeal, hj]
          have := ih s1 s' hlen1 h i
          rw [this, rcIdealRun, ← hfun]
      · simp only [if_neg hk] at h
        exact absurd h (by simp)
    | rel k =>
      simp only [SecureSlab.runRc, SecureSlab.stepRc, SecureSlab.explicit_release] at h
      by_cases hk : k < s.slots
      · simp only [if_pos hk] at h
        by_cases hz : s.rcAt k > 0
        · rw [if_pos hz] at h
          exact absurd h (by simp)
        · rw [if_neg hz] at h
          have hfun : (fun j => (s.rcAt j : ℤ)) =
              (fun j => rcIdeal (fun j' => (s.rcAt j' : ℤ)) (RcOp.rel k) j) := by
            funext j; simp [rcIdeal]
          have := ih s s' hlen h i
          rw [this, rcIdealRun, ← hfun]
      · simp only [if_neg hk] at h
        exact absurd h (by simp)

/-- `Except` bind on a success value reduces to the continuation. -/
theorem exceptBind_ok {ε α β : Type} (a : α) (f : α → Except ε β) :
    (Except.ok a : Except ε α) >>= f = f a := rfl

/-! ## Verified claims -/

/-- C7: for every slot `i < N` of the Secure Slab and every sequence of
`increment_rc` / `decrement_rc` / `explicit_release` calls, the
reference count never goes below zero: `decrement_rc` at count zero is
fatal (the program halts; there is no successor state with a changed
count), `explicit_release` succeeds exactly when the count is zero and
is fatal otherwise, leaving the slab unchanged, and along every
non-halted operation sequence from a fresh slab the guarded counts agree
with the ideal integer-valued counts, which are nonnegative (taking all
prefixes of a sequence, this covers every moment of every run). -/
theorem C7_slab_rc_nonneg :
    (∀ (s : SecureSlab) (i : ℕ), i < s.slots → s.rcAt i = 0 →
      s.decrement_rc i = .error ()) ∧
    (∀ (s : SecureSlab) (i : ℕ), i < s.slots → 0 < s.rcAt i →
      s.decrement_rc i =
        .ok { s with ref_counts := s.ref_counts.set i (s.rcAt i - 1) }) ∧
    (∀ (s : SecureSlab) (i : ℕ), i < s.slots →
      (s.explicit_release i = .ok s ↔ s.rcAt i = 0)) ∧
    (∀ (s : SecureSlab) (i : ℕ), i < s.slots → s.rcAt i ≠ 0 →
      s.explicit_release i = .error ()) ∧
    (∀ (N : ℕ) (ops : List RcOp) (s' : SecureSlab),
      (SecureSlab.new N).runRc ops = .ok s' →
      ∀ i, (s'.rcAt i : ℤ) = rcIdealRun (fun _ => 0) ops i ∧
        0 ≤ rcIdealRun (fun _ => (0 : ℤ)) ops i) := by
  refine ⟨?_, ?_, ?_, ?_, ?_⟩
  · intro s i hi hz
    simp [SecureSlab.decrement_rc, hi, hz]
  · intro s i hi hp
    simp [SecureSlab.decrement_rc, hi, Nat.pos_iff_ne_zero.mp hp]
  · intro s i hi
    constructor
    · intro h
      by_contra hz
      have : s.explicit_release i = .error () := by
        simp [SecureSlab.explicit_release, hi, Nat.pos_iff_ne_zero.mpr hz]
      rw [this] at h
      exact Except.noConfusion h
    · intro hz
      simp [SecureSlab.explicit_release, hi, hz]
  · intro s i hi hz
    simp [SecureSlab.explicit_release, hi, Nat.pos_iff_ne_zero.mpr hz]
  · intro N ops s' hrun i
    have hlen : (SecureSlab.new N).ref_counts.length = (SecureSlab.new N).slots := by
      simp [SecureSlab.new]
    have hmatch := runRc_matches_ideal ops (SecureSlab.new N) s' hlen hrun i
    have hzero : (fun j => ((SecureSlab.new N).rcAt j : ℤ)) = (fun _ => (0 : ℤ)) := by
      funext j
      simp [SecureSlab.new, SecureSlab.rcAt, list_getD_replicate_zero]
    rw [hzero] at hmatch
    exact ⟨hmatch, hmatch ▸ Int.ofNat_nonneg _⟩

/-- Witness for C7 at a concrete slab and operation sequence. -/
theorem C7_slab_rc_nonneg_witness :
    (SecureSlab.new 2).decrement_rc 0 = .error () ∧
    ((SecureSlab.new 2).rcAt 1 : ℤ) =
      rcIdealRun (fun _ => 0) [RcOp.inc 0, RcOp.dec 0] 1 := by
  constructor
  · exact C7_slab_rc_nonneg.1 (SecureSlab.new 2) 0 (by decide) (by decide)
  · exact (C7_slab_rc_nonneg.2.2.2.2 2 [RcOp.inc 0, RcOp.dec 0]
      (SecureSlab.new 2) (by rfl) 1).1

/-- C10: the IIW credit of every session is in `[0, 10]` at every moment
of every interleaving of the session operations: it starts at 10,
`consume_credit` subtracts exactly one only when the counter is
non-zero (returning `false` and changing nothing at zero),
`replenish_credits` stores exactly 10, and along every operation
sequence from a fresh session the counter stays at most 10 (it is a `ℕ`,
hence never negative). -/
theorem C10_session_credit_range :
    (∀ addr, (Session.new addr).iiw_credit = 10) ∧
    (∀ s : Session, s.iiw_credit = 0 → s.consume_credit = (false, s)) ∧
    (∀ s : Session, 0 < s.iiw_credit →
      s.consume_credit = (true, { s with iiw_credit := s.iiw_credit - 1 })) ∧
    (∀ s : Session, (s.replenish_credits).iiw_credit = 10) ∧
    (∀ (addr : ℕ) (ops : List SessionOp),
      ((Session.new addr).runOps ops).iiw_credit ≤ 10) := by
  refine ⟨?_, ?_, ?_, ?_, ?_⟩
  · intro addr; rfl
  · intro s hz; simp [Session.consume_credit, hz]
  · intro s hp; simp [Session.consume_credit, Nat.pos_iff_ne_zero.mp hp]
  · intro s; rfl
  · intro addr ops
    exact session_runOps_credit_le ops (Session.new addr) (by simp [Session.new])

/-- Witness for C10 at a concrete session and operation sequence. -/
theorem C10_session_credit_range_witness :
    (Session.new 7).consume_credit =
      (true, { Session.new 7 with iiw_credit := 9 }) ∧
    ((Session.new 7).runOps [SessionOp.consume, SessionOp.replenish]).iiw_credit ≤ 10 := by
  constructor
  · exact C10_session_credit_range.2.2.1 (Session.new 7) (by decide)
  · exact C10_session_credit_range.2.2.2.2 7 [SessionOp.consume, SessionOp.replenish]

/-- C4: whenever the slab's current version of the payload slot differs
from `expected_version`, `submit_linked_burst` returns the stale-payload
error (`InvalidData, "Stale Payload"`), pushes nothing onto the ring,
and leaves every reference count and version of the slab exactly as it
was. -/
theorem C4_freshness_gate (ring : IoRing) (slab : SecureSlab)
    (payload_handle template_handle expected_version : ℕ)
    (hp : payload_handle < slab.slots)
    (hv : slab.versionAt payload_handle ≠ expected_version) :
    submit_linked_burst ring slab payload_handle template_handle
        expected_version =
      .ok (.error .stalePayload, ring, slab) := by
  have h1 : slab.get_version payload_handle =
      .ok (slab.versionAt payload_handle) := by
    simp [SecureSlab.get_version, hp]
  simp [submit_linked_burst, h1, exceptBind_ok, hv]

/-- Witness for C4: a fresh two-slot slab holds version 0, so expecting
version 7 trips the gate. -/
theorem C4_freshness_gate_witness :
    submit_linked_burst ⟨4, [], []⟩ (SecureSlab.new 2) 0 1 7 =
      .ok (.error .stalePayload, ⟨4, [], []⟩, SecureSlab.new 2) :=
  C4_freshness_gate ⟨4, [], []⟩ (SecureSlab.new 2) 0 1 7 (by decide) (by decide)

/-- C1 (divergence evidence): with a matching version and a full
submission queue, `submit_linked_burst` reports backpressure but leaves
both reference counts incremented — the two increments performed before
the failed push are **not** reversed, contradicting the claimed
RC-neutrality of the congested path.  The concrete run uses a
capacity-1 ring already holding one entry and a fresh two-slot slab. -/
theorem C1_sq_full_leaks_rc :
    submit_linked_burst ⟨1, [99], []⟩ (SecureSlab.new 2) 0 1 0 =
      .ok (.error .sqFull, ⟨1, [99], []⟩, ⟨2, [1, 1], [0, 0]⟩) ∧
    (⟨2, [1, 1], [0, 0]⟩ : SecureSlab).rcAt 0 ≠ (SecureSlab.new 2).rcAt 0 ∧
    (⟨2, [1, 1], [0, 0]⟩ : SecureSlab).rcAt 1 ≠ (SecureSlab.new 2).rcAt 1 := by
  exact ⟨by rfl, by decide, by decide⟩

/-- C2 (divergence evidence): `PredictiveEngine::train` mutates the trie
that is currently installed in the engine, in place.  Training the fresh
engine (whose installed trie is `LinearIntentTrie::new(1024)`, root
weights `(0, 0)`) on the empty context leaves the engine holding a trie
whose root weight for outcome 1 is `1` — the installed trie itself
changed, instead of all updates going to a shadow copy. -/
theorem C2_train_mutates_installed_trie :
    PredictiveEngine.train (PredictiveEngine.new true) (Session.new 0) [] true =
      .ok ⟨⟨[⟨NULL_NODE, NULL_NODE, 0, 1, 0, 0, 0, 0⟩], 0⟩, true, thresholdF32⟩ ∧
    (⟨[⟨NULL_NODE, NULL_NODE, 0, 1, 0, 0, 0, 0⟩], 0⟩ : LinearIntentTrie) ≠
      (PredictiveEngine.new true).trie := by
  exact ⟨by rfl, by decide⟩

/-- C3 (divergence evidence): the `KillAll` arm of `handle_control` only
logs and returns the state unchanged, and `run_loop` has no `break`: an
event arriving **after** `KillAll` is still processed (here a
`SwapTrie` that installs a trie with sequence number 7), so the loop
keeps iterating instead of terminating. -/
theorem C3_killall_does_not_stop_loop :
    handle_control ⟨PredictiveEngine.new true, ⟨4, [], []⟩, SecureSlab.new 1⟩
        ControlSignal.KillAll =
      ⟨PredictiveEngine.new true, ⟨4, [], []⟩, SecureSlab.new 1⟩ ∧
    run_loop ⟨PredictiveEngine.new true, ⟨4, [], []⟩, SecureSlab.new 1⟩
        [.ctrl .KillAll, .ctrl (.SwapTrie ⟨[freshTrieNode], 7⟩)] =
      .ok ⟨⟨⟨[freshTrieNode], 7⟩, true, thresholdF32⟩, ⟨4, [], []⟩,
        SecureSlab.new 1⟩ := by
  exact ⟨by rfl, by rfl⟩

/-- C6: `merge_newer(other)` returns `false` and changes nothing when
`other.sequence_number ≤ self.sequence_number`, and likewise when the
two node pools differ in length; when `other`'s sequence number is
strictly greater and the pool lengths are equal it returns `true`,
adopts `other`'s sequence number, keeps the pool length, and per index
sets the weights to the 255-saturated sums and adopts `other`'s version
id and payload handle exactly where `other`'s version id is strictly
greater. -/
theorem C6_merge_newer_spec :
    (∀ t other : LinearIntentTrie,
      other.sequence_number ≤ t.sequence_number →
      t.merge_newer other = (false, t)) ∧
    (∀ t other : LinearIntentTrie,
      t.nodes.length ≠ other.nodes.length →
      t.merge_newer other = (false, t)) ∧
    (∀ t other : LinearIntentTrie,
      t.sequence_number < other.sequence_number →
      t.nodes.length = other.nodes.length →
      (t.merge_newer other).1 = true ∧
      (t.merge_newer other).2.sequence_number = other.sequence_number ∧
      (t.merge_newer other).2.nodes.length = t.nodes.length ∧
      (∀ i a b, t.nodes.get? i = some a → other.nodes.get? i = some b →
        ∃ c, (t.merge_newer other).2.nodes.get? i = some c ∧
          c.w0 = min (a.w0 + b.w0) 255 ∧
          c.w1 = min (a.w1 + b.w1) 255 ∧
          (a.version_id < b.version_id →
            c.version_id = b.version_id ∧
            c.payload_handle = b.payload_handle) ∧
          (¬ a.version_id < b.version_id →
            c.version_id = a.version_id ∧
            c.payload_handle = a.payload_handle))) := by
  refine ⟨?_, ?_, ?_⟩
  · intro t other h
    simp [LinearIntentTrie.merge_newer, h]
  · intro t other h
    by_cases hseq : other.sequence_number ≤ t.sequence_number
    · simp [LinearIntentTrie.merge_newer, hseq]
    · simp [LinearIntentTrie.merge_newer, hseq, h]
  · intro t other hseq hlen
    have hseq' : ¬ other.sequence_number ≤ t.sequence_number :=
      Nat.not_le.mpr hseq
    refine ⟨?_, ?_, ?_, ?_⟩
    · simp [LinearIntentTrie.merge_newer, hseq', hlen]
    · simp [LinearIntentTrie.merge_newer, hseq', hlen]
    · simp [LinearIntentTrie.merge_newer, hseq', hlen, List.length_zipWith]
    · intro i a b ha hb
      refine ⟨LinearIntentTrie.mergeNode a b, ?_, ?_, ?_, ?_, ?_⟩
      · simp only [LinearIntentTrie.merge_newer, if_neg hseq', if_pos hlen]
        rw [zipWith_get?_eq, ha, hb]
      · by_cases hv : a.version_id < b.version_id <;>
          simp [LinearIntentTrie.mergeNode, hv]
      · by_cases hv : a.version_id < b.version_id <;>
          simp [LinearIntentTrie.mergeNode, hv]
      · intro hv; simp [LinearIntentTrie.mergeNode, hv]
      · intro hv; simp [LinearIntentTrie.mergeNode, hv]

/-- Witness for C6 at concrete tries: a stale merge, a length-mismatch
merge, and a genuine merge. -/
theorem C6_merge_newer_spec_witness :
    LinearIntentTrie.merge_newer ⟨[freshTrieNode], 3⟩ ⟨[freshTrieNode], 2⟩ =
      (false, ⟨[freshTrieNode], 3⟩) ∧
    LinearIntentTrie.merge_newer ⟨[freshTrieNode], 0⟩ ⟨[], 5⟩ =
      (false, ⟨[freshTrieNode], 0⟩) ∧
    (LinearIntentTrie.merge_newer ⟨[freshTrieNode], 0⟩ ⟨[freshTrieNode], 5⟩).1 =
      true := by
  refine ⟨?_, ?_, ?_⟩
  · exact C6_merge_newer_spec.1 ⟨[freshTrieNode], 3⟩ ⟨[freshTrieNode], 2⟩
      (by decide)
  · exact C6_merge_newer_spec.2.1 ⟨[freshTrieNode], 0⟩ ⟨[], 5⟩ (by decide)
  · exact (C6_merge_newer_spec.2.2 ⟨[freshTrieNode], 0⟩ ⟨[freshTrieNode], 5⟩
      (by decide) (by decide)).1

/-- C5: `fire_push_if_likely` returns no decision whenever the engine is
inactive, the session is cancelled, or the credit is zero; otherwise it
answers `1` when `probability(context, 1)` exceeds the threshold, else
`0` when `probability(context, 0)` exceeds it, else nothing, consuming
exactly one credit exactly when it returns a decision; and on a fresh
session (credit 10) with a context of decision probability `1.0 > 0.85`,
ten consecutive calls answer `Some` and the eleventh answers `None`. -/
theorem C5_maybe_push_decision :
    (∀ (e : PredictiveEngine) (s : Session) (ctx : List ℕ),
      e.active = false → e.fire_push_if_likely s ctx = .ok (none, s)) ∧
    (∀ (e : PredictiveEngine) (s : Session) (ctx : List ℕ),
      s.canceled = true → e.fire_push_if_likely s ctx = .ok (none, s)) ∧
    (∀ (e : PredictiveEngine) (s : Session) (ctx : List ℕ),
      s.iiw_credit = 0 → e.fire_push_if_likely s ctx = .ok (none, s)) ∧
    (∀ (e : PredictiveEngine) (s : Session) (ctx : List ℕ) (p1 p0 : ℕ),
      e.active = true → s.canceled = false → 0 < s.iiw_credit →
      e.trie.get_probability ctx true = .ok p1 →
      e.trie.get_probability ctx false = .ok p0 →
      e.fire_push_if_likely s ctx = .ok
        (if p1 > e.threshold then
          (some true, { s with iiw_credit := s.iiw_credit - 1 })
        else if p0 > e.threshold then
          (some false, { s with iiw_credit := s.iiw_credit - 1 })
        else (none, s))) ∧
    fireRepeat 11 ⟨certainTrie, true, thresholdF32⟩ (Session.new 0) [] =
      .ok (List.replicate 10 (some true) ++ [none],
        { Session.new 0 with iiw_credit := 0 }) := by
  refine ⟨?_, ?_, ?_, ?_, ?_⟩
  · intro e s ctx ha
    simp [PredictiveEngine.fire_push_if_likely, ha]
  · intro e s ctx hc
    by_cases ha : e.active
    · simp [PredictiveEngine.fire_push_if_likely, ha, Session.is_canceled, hc]
    · simp [PredictiveEngine.fire_push_if_likely,
        Bool.eq_false_iff.mpr ha]
  · intro e s ctx hz
    by_cases ha : e.active
    · simp [PredictiveEngine.fire_push_if_likely, ha, Session.has_credit, hz]
    · simp [PredictiveEngine.fire_push_if_likely,
        Bool.eq_false_iff.mpr ha]
  · intro e s ctx p1 p0 ha hc hcr hp1 hp0
    have hhc : s.has_credit = true := by
      simp [Session.has_credit, hcr]
    have hcons : s.consume_credit =
        (true, { s with iiw_credit := s.iiw_credit - 1 }) := by
      simp [Session.consume_credit, Nat.pos_iff_ne_zero.mp hcr]
    simp only [PredictiveEngine.fire_push_if_likely, ha, hhc,
      Session.is_canceled, hc, Bool.not_true, Bool.false_or,
      Bool.or_false, Bool.not_false, if_false, ite_false, hp1, hp0]
    by_cases h1 : p1 > e.threshold
    · simp [h1, hcons, hc]
    · by_cases h0 : p0 > e.threshold
      · simp [h1, h0, hcons, hc]
      · simp [h1, h0]
  · rfl

/-- Witness for C5 at a concrete engine, session and context. -/
theorem C5_maybe_push_decision_witness :
    PredictiveEngine.fire_push_if_likely ⟨certainTrie, false, thresholdF32⟩
      (Session.new 3) [] = .ok (none, Session.new 3) ∧
    PredictiveEngine.fire_push_if_likely ⟨certainTrie, true, thresholdF32⟩
      (Session.new 3) [] =
      .ok (some true, { Session.new 3 with iiw_credit := 9 }) := by
  constructor
  · exact C5_maybe_push_decision.1 ⟨certainTrie, false, thresholdF32⟩
      (Session.new 3) [] (by rfl)
  · have h := C5_maybe_push_decision.2.2.2.1
      ⟨certainTrie, true, thresholdF32⟩ (Session.new 3) [] oneF32 0
      (by rfl) (by rfl) (by decide) (by rfl) (by rfl)
    rw [h]
    norm_num [oneF32, thresholdF32, Session.new]

/-- Children after `setChild`: the written slot holds the new value, the
other child is untouched. -/
theorem child_setChild (n : TrieNode) (b b' : Bool) (v : ℕ) :
    (n.setChild b v).child b' = if b' = b then v else n.child b' := by
  cases b <;> cases b' <;> simp [TrieNode.setChild, TrieNode.child]

/-- `incWeight` does not touch the children. -/
theorem child_incWeight (n : TrieNode) (b b' : Bool) :
    (LinearIntentTrie.incWeight n b).child b' = n.child b' := by
  cases b <;> cases b' <;>
    simp [LinearIntentTrie.incWeight, TrieNode.child] <;>
    split <;> rfl

/-- `mergeNode` does not touch the children. -/
theorem child_mergeNode (a b : TrieNode) (b' : Bool) :
    (LinearIntentTrie.mergeNode a b).child b' = a.child b' := by
  cases b' <;> simp [LinearIntentTrie.mergeNode, TrieNode.child] <;>
    split <;> rfl

/-- Members of a `zipWith` come from members of the two lists. -/
theorem mem_zipWith_elim {α β γ : Type} (f : α → β → γ) :
    ∀ (l1 : List α) (l2 : List β) (c : γ), c ∈ List.zipWith f l1 l2 →
      ∃ a b, a ∈ l1 ∧ b ∈ l2 ∧ c = f a b := by
  intro l1
  induction l1 with
  | nil => intro l2 c hc; simp at hc
  | cons a l1 ih =>
    intro l2 c hc
    cases l2 with
    | nil => simp at hc
    | cons b l2 =>
      simp only [List.zipWith, List.mem_cons] at hc
      rcases hc with hc | hc
      · exact ⟨a, b, by simp, by simp, hc⟩
      · obtain ⟨a', b', ha', hb', hco⟩ := ih l2 c hc
        exact ⟨a', b', by simp [ha'], by simp [hb'], hco⟩

/-- The read-only descent never leaves the pool on a well-formed pool:
it cannot panic, and when it lands on a node the index is in bounds. -/
theorem walkAux_ok :
    ∀ (bits : List Bool) (nodes : List TrieNode) (curr : ℕ),
      GoodPool nodes → curr < nodes.length →
      ∃ r, LinearIntentTrie.walkAux nodes bits curr = .ok r ∧
        ∀ i, r = some i → i < nodes.length := by
  intro bits
  induction bits with
  | nil =>
    intro nodes curr _ hcurr
    exact ⟨some curr, rfl, fun i hi => by cases hi; exact hcurr⟩
  | cons b bs ih =>
    intro nodes curr hgood hcurr
    obtain ⟨node, hnode⟩ : ∃ node, nodes.get? curr = some node :=
      ⟨nodes.get ⟨curr, hcurr⟩, List.get?_eq_get hcurr⟩
    have hmem : node ∈ nodes := List.get?_mem hnode
    have hnodeg : nodes[curr]? = some node := by
      rw [← List.get?_eq_getElem?]; exact hnode
    by_cases hnull : node.child b = NULL_NODE
    · refine ⟨none, ?_, by intro i hi; cases hi⟩
      simp [LinearIntentTrie.walkAux, hnodeg, hnull]
    · have hlt : node.child b < nodes.length := hgood node hmem b hnull
      obtain ⟨r, hr, hb⟩ := ih nodes (node.child b) hgood hlt
      refine ⟨r, ?_, hb⟩
      simp [LinearIntentTrie.walkAux, hnodeg, hnull, hr]

/-- The extending descent of `observe`/`warm` preserves pool
well-formedness, never panics, and lands in bounds. -/
theorem observeBits_ok :
    ∀ (bits : List Bool) (nodes : List TrieNode) (curr : ℕ),
      GoodPool nodes → curr < nodes.length →
      ∃ nodes' curr',
        LinearIntentTrie.observeBits nodes bits curr = .ok (nodes', curr') ∧
        GoodPool nodes' ∧ curr' < nodes'.length := by
  intro bits
  induction bits with
  | nil =>
    intro nodes curr hgood hcurr
    exact ⟨nodes, curr, rfl, hgood, hcurr⟩
  | cons b bs ih =>
    intro nodes curr hgood hcurr
    obtain ⟨node, hnode⟩ : ∃ node, nodes.get? curr = some node :=
      ⟨nodes.get ⟨curr, hcurr⟩, List.get?_eq_get hcurr⟩
    have hmem : node ∈ nodes := List.get?_mem hnode
    have hnodeg : nodes[curr]? = some node := by
      rw [← List.get?_eq_getElem?]; exact hnode
    by_cases hnull : node.child b = NULL_NODE
    · set newIdx := nodes.length % 2 ^ 32 with hNew
      set nodes1 := (nodes ++ [freshTrieNode]).set curr
        (node.setChild b newIdx) with hN1
      have hlen1 : nodes1.length = nodes.length + 1 := by
        simp [hN1]
      have hidx : newIdx < nodes1.length := by
        rw [hlen1]
        exact Nat.lt_succ_of_le (Nat.mod_le _ _)
      have hgood1 : GoodPool nodes1 := by
        intro m hm b' hb'
        rw [hlen1]
        rcases List.mem_or_eq_of_mem_set hm with hm | hm
        · rcases List.mem_append.mp hm with hm | hm
          · exact Nat.lt_succ_of_lt (hgood m hm b' hb')
          · exfalso
            apply hb'
            have : m = freshTrieNode := by simpa using hm
            cases b' <;> simp [this, freshTrieNode, TrieNode.child]
        · subst hm
          rw [child_setChild] at hb' ⊢
          by_cases hbb : b' = b
          · rw [if_pos hbb] at hb' ⊢
            exact Nat.lt_succ_of_le (Nat.mod_le _ _)
          · rw [if_neg hbb] at hb' ⊢
            exact Nat.lt_succ_of_lt (hgood node hmem b' hb')
      obtain ⟨nodes', curr', hrun, hg, hc⟩ := ih nodes1 newIdx hgood1 hidx
      refine ⟨nodes', curr', ?_, hg, hc⟩
      simpa [LinearIntentTrie.observeBits, hnodeg, hnull, hN1, hNew] using hrun
    · have hlt : node.child b < nodes.length := hgood node hmem b hnull
      obtain ⟨nodes', curr', hrun, hg, hc⟩ := ih nodes (node.child b) hgood hlt
      refine ⟨nodes', curr', ?_, hg, hc⟩
      simpa [LinearIntentTrie.observeBits, hnodeg, hnull] using hrun

/-- On a well-formed trie, `resolveCtx` never panics, and a hit returns
a node of the pool. -/
theorem resolveCtx_ok (t : LinearIntentTrie) (bits : List Bool)
    (hgood : GoodTrie t) :
    ∃ r, t.resolveCtx bits = .ok r := by
  obtain ⟨hlen, hpool⟩ := hgood
  obtain ⟨r, hr, hb⟩ := walkAux_ok bits t.nodes 0 hpool hlen
  cases r with
  | none => exact ⟨none, by simp [LinearIntentTrie.resolveCtx, hr]⟩
  | some idx =>
    have hidx : idx < t.nodes.length := hb idx rfl
    refine ⟨some (t.nodes.get ⟨idx, hidx⟩), ?_⟩
    have hg : t.nodes[idx]? = some (t.nodes.get ⟨idx, hidx⟩) := by
      rw [← List.get?_eq_getElem?]; exact List.get?_eq_get hidx
    simp [LinearIntentTrie.resolveCtx, hr, hg]

/-- `observe` preserves well-formedness and never panics on a
well-formed trie. -/
theorem observe_good (t : LinearIntentTrie) (ctx : List ℕ) (bit : Bool)
    (hgood : GoodTrie t) :
    ∃ t', t.observe ctx bit = .ok t' ∧ GoodTrie t' := by
  obtain ⟨hlen, hpool⟩ := hgood
  obtain ⟨nodes', curr', hrun, hg, hc⟩ :=
    observeBits_ok (ctxBits ctx) t.nodes 0 hpool hlen
  obtain ⟨node, hnode⟩ : ∃ node, nodes'.get? curr' = some node :=
    ⟨nodes'.get ⟨curr', hc⟩, List.get?_eq_get hc⟩
  have hnodeg : nodes'[curr']? = some node := by
    rw [← List.get?_eq_getElem?]; exact hnode
  have hmem : node ∈ nodes' := List.get?_mem hnode
  refine ⟨⟨nodes'.set curr' (LinearIntentTrie.incWeight node bit),
    t.sequence_number⟩, ?_, ?_, ?_⟩
  · simp [LinearIntentTrie.observe, hrun, hnodeg]
  · simp only [List.length_set]
    exact Nat.lt_of_le_of_lt (Nat.zero_le _) hc
  · intro m hm b' hb'
    simp only [List.length_set]
    rcases List.mem_or_eq_of_mem_set hm with hm | hm
    · exact hg m hm b' hb'
    · subst hm
      rw [child_incWeight] at hb' ⊢
      exact hg node hmem b' hb'

/-- `warm` preserves well-formedness and never panics on a well-formed
trie. -/
theorem warm_good (t : LinearIntentTrie) (path : List ℕ)
    (hgood : GoodTrie t) :
    ∃ t', t.warm path = .ok t' ∧ GoodTrie t' := by
  obtain ⟨hlen, hpool⟩ := hgood
  obtain ⟨nodes', curr', hrun, hg, hc⟩ :=
    observeBits_ok (ctxBits path) t.nodes 0 hpool hlen
  refine ⟨{ t with nodes := nodes' }, ?_, ?_, hg⟩
  · simp [LinearIntentTrie.warm, hrun]
  · exact Nat.lt_of_le_of_lt (Nat.zero_le _) hc

/-- `associate_payload` preserves well-formedness and never panics on a
well-formed trie. -/
theorem associate_payload_good (t : LinearIntentTrie) (ctx : List ℕ)
    (handle version_id : ℕ) (hgood : GoodTrie t) :
    ∃ t', t.associate_payload ctx handle version_id = .ok t' ∧
      GoodTrie t' := by
  obtain ⟨hlen, hpool⟩ := hgood
  obtain ⟨r, hr, hb⟩ := walkAux_ok (ctxBits ctx) t.nodes 0 hpool hlen
  cases r with
  | none =>
    exact ⟨t, by simp [LinearIntentTrie.associate_payload, hr], hlen, hpool⟩
  | some idx =>
    have hidx : idx < t.nodes.length := hb idx rfl
    obtain ⟨node, hnode⟩ : ∃ node, t.nodes.get? idx = some node :=
      ⟨t.nodes.get ⟨idx, hidx⟩, List.get?_eq_get hidx⟩
    have hnodeg : t.nodes[idx]? = some node := by
      rw [← List.get?_eq_getElem?]; exact hnode
    have hmem : node ∈ t.nodes := List.get?_mem hnode
    refine ⟨⟨t.nodes.set idx
      { node with payload_handle := handle, version_id := version_id },
      t.sequence_number⟩, ?_, ?_, ?_⟩
    · simp [LinearIntentTrie.associate_payload, hr, hnodeg]
    · simpa using hlen
    · intro m hm b' hb'
      simp only [List.length_set]
      rcases List.mem_or_eq_of_mem_set hm with hm | hm
      · exact hpool m hm b' hb'
      · subst hm
        have hb'' : node.child b' ≠ NULL_NODE := by
          cases b' <;> simpa [TrieNode.child] using hb'
        have hlt := hpool node hmem b' hb''
        cases b' <;> simpa [TrieNode.child] using hlt

/-- `merge_newer` preserves well-formedness of `self` for any partner
(children and pool length are never touched by the merge loop). -/
theorem merge_newer_good (t other : LinearIntentTrie)
    (hgood : GoodTrie t) : GoodTrie (t.merge_newer other).2 := by
  obtain ⟨hlen, hpool⟩ := hgood
  by_cases hseq : other.sequence_number ≤ t.sequence_number
  · simpa [LinearIntentTrie.merge_newer, hseq] using ⟨hlen, hpool⟩
  · by_cases hl : t.nodes.length = other.nodes.length
    · constructor
      · simp only [LinearIntentTrie.merge_newer, if_neg hseq, if_pos hl,
          List.length_zipWith]
        omega
      · intro m hm b' hb'
        simp only [LinearIntentTrie.merge_newer, if_neg hseq, if_pos hl] at hm ⊢
        obtain ⟨a, b, ha, _, hc⟩ :=
          mem_zipWith_elim LinearIntentTrie.mergeNode t.nodes other.nodes m hm
        subst hc
        rw [child_mergeNode] at hb' ⊢
        simp only [List.length_zipWith, ← hl, Nat.min_self]
        exact hpool a ha b' hb'
    · simpa [LinearIntentTrie.merge_newer, hseq, hl] using ⟨hlen, hpool⟩

/-- Every reachable trie is well-formed. -/
theorem trieReachable_good :
    ∀ t : LinearIntentTrie, TrieReachable t → GoodTrie t := by
  intro t hreach
  induction hreach with
  | new capacity =>
    constructor
    · simp [LinearIntentTrie.new]
    · intro m hm b hb
      exfalso
      apply hb
      have : m = freshTrieNode := by
        simpa [LinearIntentTrie.new] using hm
      cases b <;> simp [this, freshTrieNode, TrieNode.child]
  | observe ctx bit _ heq ih =>
    obtain ⟨t'', heq', hg⟩ := observe_good _ ctx bit ih
    rw [heq] at heq'
    cases heq'
    exact hg
  | warm path _ heq ih =>
    obtain ⟨t'', heq', hg⟩ := warm_good _ path ih
    rw [heq] at heq'
    cases heq'
    exact hg
  | associate ctx h v _ heq ih =>
    obtain ⟨t'', heq', hg⟩ := associate_payload_good _ ctx h v ih
    rw [heq] at heq'
    cases heq'
    exact hg
  | merge other _ ih =>
    exact merge_newer_good _ other ih

/-- C8: every trie obtained from `new` by any sequence of `observe`,
`warm`, `associate_payload` and `merge_newer` calls keeps the root node
(index 0) and the invariant that every non-null child index is strictly
below the node count; consequently the unchecked pool indexing of the
bit-path walks in `get_probability`, `observe`, `warm`,
`associate_payload` and `get_node_at_path` never goes out of bounds
(none of them can return the `Except.error` that models the
index-out-of-bounds panic), for every context. -/
theorem C8_trie_child_invariant (t : LinearIntentTrie)
    (hreach : TrieReachable t) :
    0 < t.nodes.length ∧
    (∀ n ∈ t.nodes, ∀ b : Bool, n.child b ≠ NULL_NODE →
      n.child b < t.nodes.length) ∧
    (∀ (ctx : List ℕ) (bit : Bool),
      ∃ p, t.get_probability ctx bit = .ok p) ∧
    (∀ (ctx : List ℕ) (bit : Bool), ∃ t', t.observe ctx bit = .ok t') ∧
    (∀ path : List ℕ, ∃ t', t.warm path = .ok t') ∧
    (∀ (ctx : List ℕ) (handle version_id : ℕ),
      ∃ t', t.associate_payload ctx handle version_id = .ok t') ∧
    (∀ path : List ℕ, ∃ r, t.get_node_at_path path = .ok r) := by
  have hgood : GoodTrie t := trieReachable_good t hreach
  refine ⟨hgood.1, hgood.2, ?_, ?_, ?_, ?_, ?_⟩
  · intro ctx bit
    obtain ⟨r, hr⟩ := resolveCtx_ok t (ctxBits ctx) hgood
    cases r with
    | none => exact ⟨0, by simp [LinearIntentTrie.get_probability, hr]⟩
    | some node =>
      by_cases hz : node.w0 + node.w1 = 0
      · exact ⟨0, by simp [LinearIntentTrie.get_probability, hr, hz]⟩
      · exact ⟨f32div (node.weight bit) (node.w0 + node.w1),
          by simp [LinearIntentTrie.get_probability, hr, hz]⟩
  · intro ctx bit
    obtain ⟨t', h, _⟩ := observe_good t ctx bit hgood
    exact ⟨t', h⟩
  · intro path
    obtain ⟨t', h, _⟩ := warm_good t path hgood
    exact ⟨t', h⟩
  · intro ctx handle version_id
    obtain ⟨t', h, _⟩ := associate_payload_good t ctx handle version_id hgood
    exact ⟨t', h⟩
  · intro path
    obtain ⟨r, hr⟩ := resolveCtx_ok t (ctxBits path) hgood
    exact ⟨r, hr⟩

/-- Witness for C8 at the freshly constructed trie. -/
theorem C8_trie_child_invariant_witness :
    0 < (LinearIntentTrie.new 0).nodes.length ∧
    (∃ p, (LinearIntentTrie.new 0).get_probability [72] true = .ok p) :=
  ⟨(C8_trie_child_invariant (LinearIntentTrie.new 0)
      (TrieReachable.new 0)).1,
    (C8_trie_child_invariant (LinearIntentTrie.new 0)
      (TrieReachable.new 0)).2.2.1 [72] true⟩

/-- Binary32 addition on the scaled representation is commutative. -/
theorem f32add_comm (a b : ℕ) : f32add a b = f32add b a := by
  simp [f32add, Nat.add_comm]

/-- Adding two zero probabilities yields zero. -/
theorem f32add_zero_zero : f32add 0 0 = 0 := rfl

/-- A passed `checkPair` is exactly the probability-sum identity of that
weight pair. -/
theorem checkPair_sum (w0 w1 : ℕ) (h : checkPair w0 w1 = true) :
    f32add (f32div w0 (w0 + w1)) (f32div w1 (w0 + w1)) = oneF32 :=
  Nat.eq_of_beq_eq_true h

/-- Unfolding `checkRow`: every offset up to the bound is covered. -/
theorem checkRow_spec (w0 : ℕ) :
    ∀ d, checkRow w0 d = true → ∀ j, j ≤ d →
      checkPair w0 (w0 + j) = true := by
  intro d
  induction d with
  | zero =>
    intro h j hj
    interval_cases j
    simpa using h
  | succ d ih =>
    intro h j hj
    rw [checkRow, Bool.and_eq_true] at h
    by_cases hje : j = d + 1
    · subst hje
      simpa [Nat.add_assoc] using h.1
    · exact ih h.2 j (by omega)

/-- Unfolding `checkSeg`: every row of the segment is covered. -/
theorem checkSeg_spec (lo : ℕ) :
    ∀ n, checkSeg lo n = true → ∀ m, lo < m → m ≤ lo + n →
      checkRow m (255 - m) = true := by
  intro n
  induction n with
  | zero => intro _ m h1 h2; omega
  | succ n ih =>
    intro h m h1 h2
    rw [checkSeg, Bool.and_eq_true] at h
    by_cases hme : m = lo + n + 1
    · subst hme; exact h.1
    · exact ih h.2 m h1 (by omega)

/-- Unfolding `checkZeroRow`. -/
theorem checkZeroRow_spec :
    ∀ n, checkZeroRow n = true → ∀ k, 1 ≤ k → k ≤ n →
      checkPair 0 k = true := by
  intro n
  induction n with
  | zero => intro _ k h1 h2; omega
  | succ n ih =>
    intro h k h1 h2
    rw [checkZeroRow, Bool.and_eq_true] at h
    by_cases hke : k = n + 1
    · subst hke; exact h.1
    · exact ih h.2 k h1 (by omega)

set_option maxRecDepth 100000 in
set_option maxHeartbeats 2000000 in
/-- Kernel evaluation of the probability-sum check for rows
`1 ≤ w0 ≤ 15`. -/
theorem checkSeg_0_15 : checkSeg 0 15 = true := by decide

set_option maxRecDepth 100000 in
set_option maxHeartbeats 2000000 in
/-- Kernel evaluation of the probability-sum check for rows
`16 ≤ w0 ≤ 30`. -/
theorem checkSeg_15_15 : checkSeg 15 15 = true := by decide

set_option maxRecDepth 100000 in
set_option maxHeartbeats 2000000 in
/-- Kernel evaluation of the probability-sum check for rows
`31 ≤ w0 ≤ 45`. -/
theorem checkSeg_30_15 : checkSeg 30 15 = true := by decide

set_option maxRecDepth 100000 in
set_option maxHeartbeats 2000000 in
/-- Kernel evaluation of the probability-sum check for rows
`46 ≤ w0 ≤ 60`. -/
theorem checkSeg_45_15 : checkSeg 45 15 = true := by decide

set_option maxRecDepth 100000 in
set_option maxHeartbeats 2000000 in
/-- Kernel evaluation of the probability-sum check for rows
`61 ≤ w0 ≤ 75`. -/
theorem checkSeg_60_15 : checkSeg 60 15 = true := by decide

set_option maxRecDepth 100000 in
set_option maxHeartbeats 2000000 in
/-- Kernel evaluation of the probability-sum check for rows
`76 ≤ w0 ≤ 90`. -/
theorem checkSeg_75_15 : checkSeg 75 15 = true := by decide

set_option maxRecDepth 100000 in
set_option maxHeartbeats 2000000 in
/-- Kernel evaluation of the probability-sum check for rows
`91 ≤ w0 ≤ 105`. -/
theorem checkSeg_90_15 : checkSeg 90 15 = true := by decide

set_option maxRecDepth 100000 in
set_option maxHeartbeats 2000000 in
/-- Kernel evaluation of the probability-sum check for rows
`106 ≤ w0 ≤ 120`. -/
theorem checkSeg_105_15 : checkSeg 105 15 = true := by decide

set_option maxRecDepth 100000 in
set_option maxHeartbeats 2000000 in
/-- Kernel evaluation of the probability-sum check for rows
`121 ≤ w0 ≤ 135`. -/
theorem checkSeg_120_15 : checkSeg 120 15 = true := by decide

set_option maxRecDepth 100000 in
set_option maxHeartbeats 2000000 in
/-- Kernel evaluation of the probability-sum check for rows
`136 ≤ w0 ≤ 150`. -/
theorem checkSeg_135_15 : checkSeg 135 15 = true := by decide

set_option maxRecDepth 100000 in
set_option maxHeartbeats 2000000 in
/-- Kernel evaluation of the probability-sum check for rows
`151 ≤ w0 ≤ 165`. -/
theorem checkSeg_150_15 : checkSeg 150 15 = true := by decide

set_option maxRecDepth 100000 in
set_option maxHeartbeats 2000000 in
/-- Kernel evaluation of the probability-sum check for rows
`166 ≤ w0 ≤ 180`. -/
theorem checkSeg_165_15 : checkSeg 165 15 = true := by decide

set_option maxRecDepth 100000 in
set_option maxHeartbeats 2000000 in
/-- Kernel evaluation of the probability-sum check for rows
`181 ≤ w0 ≤ 195`. -/
theorem checkSeg_180_15 : checkSeg 180 15 = true := by decide

set_option maxRecDepth 100000 in
set_option maxHeartbeats 2000000 in
/-- Kernel evaluation of the probability-sum check for rows
`196 ≤ w0 ≤ 210`. -/
theorem checkSeg_195_15 : checkSeg 195 15 = true := by decide

set_option maxRecDepth 100000 in
set_option maxHeartbeats 2000000 in
/-- Kernel evaluation of the probability-sum check for rows
`211 ≤ w0 ≤ 225`. -/
theorem checkSeg_210_15 : checkSeg 210 15 = true := by decide

set_option maxRecDepth 100000 in
set_option maxHeartbeats 2000000 in
/-- Kernel evaluation of the probability-sum check for rows
`226 ≤ w0 ≤ 240`. -/
theorem checkSeg_225_15 : checkSeg 225 15 = true := by decide

set_option maxRecDepth 100000 in
set_option maxHeartbeats 2000000 in
/-- Kernel evaluation of the probability-sum check for rows
`241 ≤ w0 ≤ 255`. -/
theorem checkSeg_240_15 : checkSeg 240 15 = true := by decide

/-- Every row check with `1 ≤ m ≤ 255` holds, assembled from the 17
verified segments. -/
theorem checkRow_all (m : ℕ) (h1 : 1 ≤ m) (h2 : m ≤ 255) :
    checkRow m (255 - m) = true := by
  by_cases h1 : m ≤ 15
  · exact checkSeg_spec 0 15 checkSeg_0_15 m (by omega) (by omega)
  by_cases h2 : m ≤ 30
  · exact checkSeg_spec 15 15 checkSeg_15_15 m (by omega) (by omega)
  by_cases h3 : m ≤ 45
  · exact checkSeg_spec 30 15 checkSeg_30_15 m (by omega) (by omega)
  by_cases h4 : m ≤ 60
  · exact checkSeg_spec 45 15 checkSeg_45_15 m (by omega) (by omega)
  by_cases h5 : m ≤ 75
  · exact checkSeg_spec 60 15 checkSeg_60_15 m (by omega) (by omega)
  by_cases h6 : m ≤ 90
  · exact checkSeg_spec 75 15 checkSeg_75_15 m (by omega) (by omega)
  by_cases h7 : m ≤ 105
  · exact checkSeg_spec 90 15 checkSeg_90_15 m (by omega) (by omega)
  by_cases h8 : m ≤ 120
  · exact checkSeg_spec 105 15 checkSeg_105_15 m (by omega) (by omega)
  by_cases h9 : m ≤ 135
  · exact checkSeg_spec 120 15 checkSeg_120_15 m (by omega) (by omega)
  by_cases h10 : m ≤ 150
  · exact checkSeg_spec 135 15 checkSeg_135_15 m (by omega) (by omega)
  by_cases h11 : m ≤ 165
  · exact checkSeg_spec 150 15 checkSeg_150_15 m (by omega) (by omega)
  by_cases h12 : m ≤ 180
  · exact checkSeg_spec 165 15 checkSeg_165_15 m (by omega) (by omega)
  by_cases h13 : m ≤ 195
  · exact checkSeg_spec 180 15 checkSeg_180_15 m (by omega) (by omega)
  by_cases h14 : m ≤ 210
  · exact checkSeg_spec 195 15 checkSeg_195_15 m (by omega) (by omega)
  by_cases h15 : m ≤ 225
  · exact checkSeg_spec 210 15 checkSeg_210_15 m (by omega) (by omega)
  by_cases h16 : m ≤ 240
  · exact checkSeg_spec 225 15 checkSeg_225_15 m (by omega) (by omega)
  by_cases h17 : m ≤ 255
  · exact checkSeg_spec 240 15 checkSeg_240_15 m (by omega) (by omega)
  · omega

set_option maxRecDepth 20000 in
set_option maxHeartbeats 1000000 in
/-- The exhaustive probability-sum check over the pairs `(0, w1)` with
`1 ≤ w1 ≤ 255`, evaluated by the kernel. -/
theorem checkZeroRow_255_eq_true : checkZeroRow 255 = true := by decide

/-- For every `u8` weight pair with a positive total, the binary32 sum of
the two rounded quotients is exactly `1.0`. -/
theorem f32_pair_sum_one :
    ∀ w0 w1 : ℕ, w0 ≤ 255 → w1 ≤ 255 → 0 < w0 + w1 →
      f32add (f32div w0 (w0 + w1)) (f32div w1 (w0 + w1)) = oneF32 := by
  intro w0 w1 hb0 hb1 hpos
  rcases Nat.eq_zero_or_pos w0 with hz0 | hp0
  · subst hz0
    have h1 : 1 ≤ w1 := by omega
    have := checkPair_sum 0 w1
      (checkZeroRow_spec 255 checkZeroRow_255_eq_true w1 h1 hb1)
    simpa using this
  · rcases Nat.eq_zero_or_pos w1 with hz1 | hp1
    · subst hz1
      have h0 : 1 ≤ w0 := by omega
      have := checkPair_sum 0 w0
        (checkZeroRow_spec 255 checkZeroRow_255_eq_true w0 h0 hb0)
      rw [f32add_comm]
      simpa [Nat.add_comm] using this
    · rcases le_or_lt w0 w1 with hle | hlt
      · have hrow := checkRow_all w0 hp0 hb0
        have hpair := checkRow_spec w0 (255 - w0) hrow (w1 - w0) (by omega)
        have hrw : w0 + (w1 - w0) = w1 := by omega
        rw [hrw] at hpair
        exact checkPair_sum w0 w1 hpair
      · have hrow := checkRow_all w1 hp1 hb1
        have hpair := checkRow_spec w1 (255 - w1) hrow (w0 - w1) (by omega)
        have hrw : w1 + (w0 - w1) = w0 := by omega
        rw [hrw] at hpair
        have := checkPair_sum w1 w0 hpair
        rw [f32add_comm]
        simpa [Nat.add_comm] using this

/-- A hit of `resolveCtx` returns a node of the pool. -/
theorem resolveCtx_mem (t : LinearIntentTrie) (bits : List Bool)
    (node : TrieNode) (h : t.resolveCtx bits = .ok (some node)) :
    node ∈ t.nodes := by
  unfold LinearIntentTrie.resolveCtx at h
  cases hwa : LinearIntentTrie.walkAux t.nodes bits 0 with
  | error e =>
    cases e
    rw [hwa] at h
    exact absurd h (by simp)
  | ok r =>
    rw [hwa] at h
    cases r with
    | none => exact absurd h (by simp)
    | some idx =>
      dsimp only at h
      cases hg : t.nodes.get? idx with
      | none =>
        rw [hg] at h
        exact absurd h (by simp)
      | some m =>
        rw [hg] at h
        simp only [Except.ok.injEq, Option.some.injEq] at h
        rw [← h]
        exact List.get?_mem hg

/-- C9: for every trie with `u8` weights and every context, the binary32
sum of `probability(context, 0)` and `probability(context, 1)` is
exactly `0` or exactly `1`, and it is `0` precisely when the bit path is
missing or both leaf weights are zero (so for every weight pair
`w0, w1 ≤ 255` with `w0 + w1 > 0`, the float sum
`w0/(w0+w1) + w1/(w0+w1)` is exactly `1`). -/
theorem C9_probability_sum (t : LinearIntentTrie) (ctx : List ℕ)
    (p0 p1 : ℕ) (hw : WeightsBounded t)
    (h0 : t.get_probability ctx false = .ok p0)
    (h1 : t.get_probability ctx true = .ok p1) :
    (f32add p0 p1 = 0 ∨ f32add p0 p1 = oneF32) ∧
    (f32add p0 p1 = 0 ↔
      (t.resolveCtx (ctxBits ctx) = .ok none ∨
        ∃ node, t.resolveCtx (ctxBits ctx) = .ok (some node) ∧
          node.w0 = 0 ∧ node.w1 = 0)) := by
  unfold LinearIntentTrie.get_probability at h0 h1
  cases hres : t.resolveCtx (ctxBits ctx) with
  | error e =>
    cases e
    rw [hres] at h0
    exact absurd h0 (by simp)
  | ok r =>
    rw [hres] at h0 h1
    cases r with
    | none =>
      replace h0 : (Except.ok 0 : Except Unit ℕ) = Except.ok p0 := h0
      replace h1 : (Except.ok 0 : Except Unit ℕ) = Except.ok p1 := h1
      simp only [Except.ok.injEq] at h0 h1
      subst h0; subst h1
      rw [f32add_zero_zero]
      exact ⟨Or.inl rfl, by simp⟩
    | some node =>
      replace h0 : (if node.w0 + node.w1 = 0 then (Except.ok 0 : Except Unit ℕ)
        else Except.ok (f32div (node.weight false) (node.w0 + node.w1))) =
          Except.ok p0 := h0
      replace h1 : (if node.w0 + node.w1 = 0 then (Except.ok 0 : Except Unit ℕ)
        else Except.ok (f32div (node.weight true) (node.w0 + node.w1))) =
          Except.ok p1 := h1
      by_cases hz : node.w0 + node.w1 = 0
      · rw [if_pos hz] at h0 h1
        simp only [Except.ok.injEq] at h0 h1
        subst h0; subst h1
        rw [f32add_zero_zero]
        have hnz : node.w0 = 0 ∧ node.w1 = 0 := by omega
        refine ⟨Or.inl rfl, ?_⟩
        constructor
        · intro _
          exact Or.inr ⟨node, rfl, hnz⟩
        · intro _; rfl
      · rw [if_neg hz] at h0 h1
        simp only [Except.ok.injEq] at h0 h1
        subst h0; subst h1
        have hmem : node ∈ t.nodes := resolveCtx_mem t (ctxBits ctx) node hres
        obtain ⟨hb0, hb1⟩ := hw node hmem
        have hsum : f32add (f32div node.w0 (node.w0 + node.w1))
            (f32div node.w1 (node.w0 + node.w1)) = oneF32 :=
          f32_pair_sum_one node.w0 node.w1 hb0 hb1 (by omega)
        have hw0 : node.weight false = node.w0 := rfl
        have hw1 : node.weight true = node.w1 := rfl
        rw [hw0, hw1, hsum]
        have hone : oneF32 ≠ 0 := by simp [oneF32]
        refine ⟨Or.inr rfl, ?_⟩
        constructor
        · intro h; exact absurd h hone
        · intro h
          rcases h with h | ⟨node', hn', hz0, hz1⟩
          · exact absurd h (by simp)
          · simp only [Except.ok.injEq, Option.some.injEq] at hn'
            subst hn'
            omega

/-- Witness for C9 at a concrete trie and context: root weights `(0, 1)`
resolve to probabilities `0` and `1`, whose binary32 sum is `1`. -/
theorem C9_probability_sum_witness :
    f32add 0 oneF32 = 0 ∨ f32add 0 oneF32 = oneF32 := by
  have hwb : WeightsBounded certainTrie := by
    intro n hn
    simp only [certainTrie, List.mem_singleton] at hn
    subst hn
    exact ⟨by decide, by decide⟩
  exact (C9_probability_sum certainTrie [] 0 oneF32 hwb (by rfl) (by rfl)).1
